import Mathlib

/-!
Verification of the hybrid-retrieval core of `rag_tutorials`
(chunking, BM25 keyword search, Reciprocal Rank Fusion, reranking,
evaluation metrics) against its natural-language specification.

The Python modules `chunking.py`, `retrieval.py`, `reranking.py` and
`evaluation.py` are shallowly embedded below: every Python function that a
claim touches becomes a Lean function over `List`/`String`/`ℚ`
(Python floats are modelled as rationals; every numeric fact proved here is
exact in IEEE doubles as well, since the only float values involved are
sums of two equal dyadic-scaled reciprocals or ratios of small integers).
Python's stable `sorted(..., reverse=True)` is modelled by
`List.insertionSort` with a "greater-or-equal score" relation, which places
an element before the first existing element of no larger key — the same
order stable descending sorting produces.
-/

namespace Rag

/-- Section-level source document (schema.py `Document`). -/
structure Document where
  doc_id : String
  title : String
  sectionName : String
  text : String
deriving DecidableEq, Repr

/-- Chunked segment of a source document (schema.py `Chunk`). -/
structure Chunk where
  chunk_id : String
  doc_id : String
  sectionName : String
  text : String
deriving DecidableEq, Repr

/-- Labeled evaluation query (schema.py `QueryExample`). -/
structure QueryExample where
  query_id : String
  question : String
  relevant_chunk_ids : List String
  target_doc_id : String
  target_section : String
  rationale : String
deriving DecidableEq, Repr

/-- Retrieval-stage output record (schema.py `RetrievalResult`).
Python's float `score` is modelled as a rational. -/
structure RetrievalResult where
  chunk_id : String
  score : ℚ
  source : String
  text : String
deriving DecidableEq, Repr

/-! ## Decimal formatting (Python `f"{n:02d}"`) -/

/-- The ASCII digit character of `d` (meaningful for `d < 10`). -/
def digitChar (d : Nat) : Char := Char.ofNat (48 + d)

/-- Fuel-driven most-significant-first decimal digits of `n`; `fuel > n`
guarantees enough steps (each recursive step divides `n` by ten). -/
def decRepGo : Nat → Nat → List Char
  | 0, _ => []
  | fuel + 1, n => if n < 10 then [digitChar n] else decRepGo fuel (n / 10) ++ [digitChar (n % 10)]

/-- Decimal digit string of a natural number, as Python's `"%d"`. -/
def decRep (n : Nat) : List Char := decRepGo (n + 1) n

/-- Python's `f"{n:02d}"`: decimal digits zero-padded to width at least 2. -/
def pad2 (n : Nat) : List Char := if n < 10 then '0' :: decRep n else decRep n

/-- Decimal value read back from a digit string (proof device used to show
that decimal formatting is injective). -/
def decVal (l : List Char) : Nat := l.foldl (fun acc c => 10 * acc + (c.toNat - 48)) 0

/-- Chunk-id construction `f"{doc_id}<sep>{part:02d}"` shared by both
chunking strategies; `sep` is `"-FIX-"` or `"-SEM-"`. -/
def mkChunkId (doc : String) (sep : List Char) (part : Nat) : String :=
  ⟨doc.data ++ sep ++ pad2 part⟩

/-- The fixed-width strategy's id separator `"-FIX-"`. -/
def fixSep : List Char := ['-', 'F', 'I', 'X', '-']

/-- The semantic strategy's id separator `"-SEM-"`. -/
def semSep : List Char := ['-', 'S', 'E', 'M', '-']

/-! ## Fixed-width chunking (chunking.py `fixed_chunk_documents`) -/

/-- Fuel-driven transcription of the `while start < len(text)` loop of
`fixed_chunk_documents`: emit `text[start : start+size]` and advance
`start` by `size`.  Each iteration consumes at least one character when
`1 ≤ size`, so `fuel = text.length` suffices; `size = 0` makes the Python
loop diverge and is outside every claim (all claims assume `size ≥ 1`). -/
def fixedSegmentsGo (size : Nat) : Nat → List Char → List (List Char)
  | _, [] => []
  | 0, _ :: _ => []
  | fuel + 1, c :: rest => (c :: rest).take size :: fixedSegmentsGo size fuel ((c :: rest).drop size)

/-- All fixed-width segments of a text, in emission order. -/
def fixedSegments (size : Nat) (text : List Char) : List (List Char) :=
  fixedSegmentsGo size text.length text

/-- Emit one `Chunk` record per text piece, numbering them with the
running `part` counter exactly as the Python loops do. -/
def chunksFromTexts (d : Document) (sep : List Char) : Nat → List String → List Chunk
  | _, [] => []
  | part, t :: rest =>
      { chunk_id := mkChunkId d.doc_id sep part
        doc_id := d.doc_id
        sectionName := d.sectionName
        text := t } :: chunksFromTexts d sep (part + 1) rest

/-- chunking.py `fixed_chunk_documents`: split each document into
fixed-width character chunks with ids `f"{doc_id}-FIX-{part:02d}"`
(`part` counts from 0 per document). -/
def fixed_chunk_documents (documents : List Document) (chunk_size : Nat) : List Chunk :=
  documents.flatMap fun d =>
    chunksFromTexts d fixSep 0
      ((fixedSegments chunk_size d.text.data).map fun s => String.mk s)

/-! ## Semantic chunking (chunking.py `semantic_chunk_documents`) -/

/-- The ASCII whitespace characters stripped by Python's `str.strip()`. -/
def isPySpace (c : Char) : Bool :=
  c = ' ' || c = '\t' || c = '\n' || c = '\r' || c = '\x0B' || c = '\x0C'

/-- Python `str.strip()`: remove whitespace from both ends. -/
def pyStrip (s : String) : String :=
  ⟨((s.data.dropWhile isPySpace).reverse.dropWhile isPySpace).reverse⟩

/-- Fuel-driven transcription of Python `text.split(". ")`: cut at each
leftmost non-overlapping occurrence of the two-character separator,
accumulating the current piece in reverse.  At least one character is
consumed per step, so `fuel = text.length` suffices. -/
def splitDSGo : Nat → List Char → List Char → List (List Char)
  | _, [], cur => [cur.reverse]
  | 0, _ :: _, cur => [cur.reverse]
  | fuel + 1, c :: rest, cur =>
      if c = '.' then
        match rest with
        | ' ' :: rest2 => cur.reverse :: splitDSGo fuel rest2 []
        | _ => splitDSGo fuel rest (c :: cur)
      else splitDSGo fuel rest (c :: cur)

/-- Python `text.split(". ")`. -/
def pySplitDotSpace (s : String) : List String :=
  (splitDSGo s.data.length s.data []).map fun l => String.mk l

/-- chunking.py line 51:
`[piece.strip() for piece in document.text.split(". ") if piece.strip()]`. -/
def sentenceLikeParts (text : String) : List String :=
  ((pySplitDotSpace text).map pyStrip).filter fun s => s != ""

/-- Python `". ".join(parts)`. -/
def joinDS : List String → String
  | [] => ""
  | [s] => s
  | s :: rest => s ++ ". " ++ joinDS rest

/-- The grouping rule of chunking.py lines 52-58: one group when at most
two sentence-like units remain, otherwise exactly two groups (first two
units, then the rest). -/
def mergedGroups (parts : List String) : List String :=
  if parts.length ≤ 2 then [joinDS parts]
  else [joinDS (parts.take 2), joinDS (parts.drop 2)]

/-- chunking.py `semantic_chunk_documents`: group sentence-like units per
document, with ids `f"{doc_id}-SEM-{idx:02d}"`. -/
def semantic_chunk_documents (documents : List Document) : List Chunk :=
  documents.flatMap fun d =>
    chunksFromTexts d semSep 0 (mergedGroups (sentenceLikeParts d.text))

/-! ## Shared text helpers -/

/-- Python ASCII lowering of one character (`str.lower` restricted to
ASCII, which is all the claims exercise). -/
def lowerChar (c : Char) : Char :=
  if 'A' ≤ c ∧ c ≤ 'Z' then Char.ofNat (c.toNat + 32) else c

/-- Python `text.lower()` on ASCII text. -/
def pyLower (s : String) : String := ⟨s.data.map lowerChar⟩

/-- Maximal runs of characters satisfying `p`, current run accumulated in
reverse; empty runs are not emitted. -/
def runsGo (p : Char → Bool) : List Char → List Char → List (List Char)
  | [], cur => if cur.isEmpty then [] else [cur.reverse]
  | c :: rest, cur =>
      if p c then runsGo p rest (c :: cur)
      else if cur.isEmpty then runsGo p rest []
      else cur.reverse :: runsGo p rest []

/-- Maximal runs of characters satisfying `p` in a text. -/
def runsOf (p : Char → Bool) (l : List Char) : List (List Char) := runsGo p l []

/-- Python `text.split()` (no argument): maximal runs of non-whitespace. -/
def wsTokens (s : String) : List String :=
  (runsOf (fun c => !(isPySpace c)) s.data).map fun l => String.mk l

/-- One character of the regex class `[a-zA-Z0-9-]`. -/
def isTokChar (c : Char) : Bool := c.isAlphanum || c = '-'

/-- evaluation.py `_normalize`: the set of lowercase `[a-zA-Z0-9-]+` tokens
of a text (`set(re.findall(r"[a-zA-Z0-9-]+", text.lower()))`). -/
def normalizeTokens (text : String) : Finset String :=
  ((runsOf isTokChar (pyLower text).data).map fun l => String.mk l).toFinset

/-- Python's substring test `needle in hay` on strings. -/
def containsSub (needle hay : String) : Bool :=
  hay.data.tails.any fun t => needle.data.isPrefixOf t

/-! ## Evaluation metrics (evaluation.py) -/

/-- The `for result in window: if target in result.chunk_id: return 1.0`
loop of `recall_at_k`. -/
def recallWindow (target : String) : List RetrievalResult → ℚ
  | [] => 0
  | r :: rest => if containsSub target r.chunk_id then 1 else recallWindow target rest

/-- evaluation.py `recall_at_k`: binary recall over the first `k` results. -/
def recall_at_k (results : List RetrievalResult) (query : QueryExample) (k : Nat) : ℚ :=
  recallWindow query.target_doc_id (results.take k)

/-- The `for rank, result in enumerate(results, start=1)` loop of
`reciprocal_rank`. -/
def rrLoop (target : String) : Nat → List RetrievalResult → ℚ
  | _, [] => 0
  | rank, r :: rest =>
      if containsSub target r.chunk_id then 1 / (rank : ℚ) else rrLoop target (rank + 1) rest

/-- evaluation.py `reciprocal_rank`: `1/rank` of the first matching result
over the entire list, 0 when none matches. -/
def reciprocal_rank (results : List RetrievalResult) (query : QueryExample) : ℚ :=
  rrLoop query.target_doc_id 1 results

/-- evaluation.py `groundedness_score`: lexical overlap between the answer
token set and the union of context token sets. -/
def groundedness_score (answer : String) (contexts : List String) : ℚ :=
  if (normalizeTokens answer).card = 0 then 0
  else ((normalizeTokens answer
          ∩ contexts.foldl (fun acc context => acc ∪ normalizeTokens context) ∅).card : ℚ)
        / ((max (normalizeTokens answer).card 1 : ℕ) : ℚ)

/-! ## Reciprocal Rank Fusion (retrieval.py `reciprocal_rank_fusion`) -/

/-- Keys of a Python dict in insertion order: first occurrence wins. -/
def firstDedupGo : List String → List String → List String
  | [], _ => []
  | x :: xs, seen => if x ∈ seen then firstDedupGo xs seen else x :: firstDedupGo xs (x :: seen)

/-- Deduplicate keeping first occurrences, in order. -/
def firstDedup (l : List String) : List String := firstDedupGo l []

/-- Total contribution `Σ 1/(k+rank)` of every occurrence of `cid` in one
ranked list, ranks starting at `rank` (the Python loop enumerates from 1). -/
def rrfContrib (k : ℚ) : Nat → List RetrievalResult → String → ℚ
  | _, [], _ => 0
  | rank, r :: rest, cid =>
      (if r.chunk_id = cid then 1 / (k + (rank : ℚ)) else 0) + rrfContrib k (rank + 1) rest cid

/-- The final value of `fused_scores[cid]` after both accumulation loops. -/
def fusedScore (k : ℚ) (dense keyword : List RetrievalResult) (cid : String) : ℚ :=
  rrfContrib k 1 dense cid + rrfContrib k 1 keyword cid

/-- The final value of `text_lookup[cid]`: last write wins across the two
loops (dense first, then keyword). -/
def lastTextOf (results : List RetrievalResult) (cid : String) : String :=
  (((results.filter fun r => r.chunk_id == cid).map (·.text)).getLast?).getD ""

/-- Descending-score order on keyed scores, as a sorting relation:
`sndGE x y` holds when `x`'s score is at least `y`'s.  Stable insertion
sort with this relation is exactly Python's stable
`sorted(..., key=score, reverse=True)`. -/
def sndGE {α : Type} (x y : α × ℚ) : Prop := y.2 ≤ x.2

instance {α : Type} : DecidableRel (@sndGE α) :=
  fun x y => inferInstanceAs (Decidable (y.2 ≤ x.2))

instance {α : Type} : IsTotal (α × ℚ) sndGE := ⟨fun x y => le_total y.2 x.2⟩

instance {α : Type} : IsTrans (α × ℚ) sndGE := ⟨fun _ _ _ hab hbc => le_trans hbc hab⟩

/-- retrieval.py `reciprocal_rank_fusion`: accumulate `1/(k+rank)` per
list, then sort all distinct chunk ids by fused score descending.  The
Python `int` parameter `k` is generalized to a rational. -/
def reciprocal_rank_fusion (dense keyword : List RetrievalResult) (k : ℚ) : List RetrievalResult :=
  let ids := firstDedup ((dense ++ keyword).map (·.chunk_id))
  let items := ids.map fun cid => (cid, fusedScore k dense keyword cid)
  (List.insertionSort sndGE items).map fun p =>
    { chunk_id := p.1, score := p.2, source := "hybrid", text := lastTextOf (dense ++ keyword) p.1 }

/-! ## Keyword index (retrieval.py `build_bm25` / `bm25_search`) -/

/-- Modelled from the spec: the external `rank_bm25.BM25Okapi` index is not
part of this repository; per spec §4.2 it holds the tokenized corpus
(lower-cased whitespace tokens, one token list per chunk). -/
structure BM25Okapi where
  docs : List (List String)
deriving DecidableEq, Repr

/-- retrieval.py `build_bm25`: tokenize chunk texts and build the index
plus aligned corpus/chunk-id arrays. -/
def build_bm25 (chunks : List Chunk) : BM25Okapi × List String × List String :=
  let corpus := chunks.map (·.text)
  let tokenized := corpus.map fun text => wsTokens (pyLower text)
  (⟨tokenized⟩, corpus, chunks.map (·.chunk_id))

/-- Modelled from the spec: `BM25Okapi.get_scores` is external library
code; spec §4.2 specifies that it scores every indexed chunk (one score
per document) with the standard Okapi BM25 function and §7 specifies that
zero denominators are clamped, so scoring is total.  The per-document
numeric scoring function is abstracted as the parameter `score` — the
claims settled here depend only on totality and the one-score-per-document
shape, never on the numeric value of a score. -/
def get_scores (score : List String → List String → ℚ) (index : BM25Okapi)
    (queryTokens : List String) : List ℚ :=
  index.docs.map (score queryTokens)

/-- retrieval.py `bm25_search`: score all indexed chunks, sort index
positions by score descending (stable), truncate to `top_k`, and build
keyword-tagged results from the aligned arrays. -/
def bm25_search (score : List String → List String → ℚ) (index : BM25Okapi) (query : String)
    (corpus : List String) (chunk_ids : List String) (top_k : Nat) : List RetrievalResult :=
  let scores := get_scores score index (wsTokens (pyLower query))
  let ranked := ((List.insertionSort sndGE scores.enum).map (·.1)).take top_k
  ranked.map fun i =>
    { chunk_id := chunk_ids.getD i ""
      score := scores.getD i 0
      source := "keyword"
      text := corpus.getD i "" }

/-! ## Reranking (reranking.py `LocalCrossEncoderReranker.rerank`) -/

/-- Descending-score order on retrieval results. -/
def resGE (x y : RetrievalResult) : Prop := y.score ≤ x.score

instance : DecidableRel resGE := fun x y => inferInstanceAs (Decidable (y.score ≤ x.score))

instance : IsTotal RetrievalResult resGE := ⟨fun x y => le_total y.score x.score⟩

instance : IsTrans RetrievalResult resGE := ⟨fun _ _ _ hab hbc => le_trans hbc hab⟩

/-- reranking.py `LocalCrossEncoderReranker.rerank`.  The external
cross-encoder (`self.model.predict`, contract per spec §6: one score per
input pair, order preserving) is the parameter `predict`, applied to each
(query, text) pair.  The returned boolean records whether the external
model was invoked, making the claim about "without calling the model"
statable. -/
def rerank (predict : String × String → ℚ) (query : String) (results : List RetrievalResult)
    (top_k : Nat) : List RetrievalResult × Bool :=
  if results = [] then ([], false)
  else
    let pairs := results.map fun r => (query, r.text)
    let scores := pairs.map predict
    let ranked := List.insertionSort resGE (List.zipWith
      (fun r s => { chunk_id := r.chunk_id, score := s, source := "reranked", text := r.text })
      results scores)
    (ranked.take top_k, true)

/-! ## Lemmas: fixed-width round trip -/

theorem fixedSegmentsGo_nil (size fuel : Nat) : fixedSegmentsGo size fuel [] = [] := by
  cases fuel <;> rfl

theorem join_fixedSegmentsGo (size : Nat) (hsize : 1 ≤ size) :
    ∀ (fuel : Nat) (text : List Char), text.length ≤ fuel →
      (fixedSegmentsGo size fuel text).flatten = text := by
  intro fuel
  induction fuel with
  | zero =>
    intro text hlen
    cases text with
    | nil => rfl
    | cons c rest => simp at hlen
  | succ n ih =>
    intro text hlen
    cases text with
    | nil => rfl
    | cons c rest =>
      have hdrop : ((c :: rest).drop size).length ≤ n := by
        have h1 : ((c :: rest).drop size).length = (c :: rest).length - size := by
          simp [List.length_drop]
        have h2 : (c :: rest).length - size ≤ (c :: rest).length - 1 :=
          Nat.sub_le_sub_left hsize _
        omega
      calc (fixedSegmentsGo size (n + 1) (c :: rest)).flatten
          = (c :: rest).take size ++ (fixedSegmentsGo size n ((c :: rest).drop size)).flatten := by
            rfl
        _ = (c :: rest).take size ++ (c :: rest).drop size := by rw [ih _ hdrop]
        _ = c :: rest := List.take_append_drop _ _

theorem join_fixedSegments (size : Nat) (hsize : 1 ≤ size) (text : List Char) :
    (fixedSegments size text).flatten = text :=
  join_fixedSegmentsGo size hsize text.length text le_rfl

/-- `String.join` of a list of strings, seen through `String.data`. -/
theorem data_join : ∀ l : List String, (String.join l).data = (l.map String.data).flatten := by
  have aux : ∀ (l : List String) (acc : String),
      (l.foldl (fun a b => a ++ b) acc).data = acc.data ++ (l.map String.data).flatten := by
    intro l
    induction l with
    | nil => intro acc; simp
    | cons s rest ih =>
      intro acc
      simp only [List.foldl_cons, List.map_cons, List.flatten]
      rw [ih (acc ++ s)]
      simp
  intro l
  exact aux l ""

theorem map_text_chunksFromTexts (d : Document) (sep : List Char) :
    ∀ (texts : List String) (part : Nat),
      (chunksFromTexts d sep part texts).map (·.text) = texts := by
  intro texts
  induction texts with
  | nil => intro part; rfl
  | cons s rest ih =>
    intro part
    simp only [chunksFromTexts, List.map_cons]
    rw [ih (part + 1)]

theorem map_id_chunksFromTexts (d : Document) (sep : List Char) :
    ∀ (texts : List String) (part : Nat),
      (chunksFromTexts d sep part texts).map (·.chunk_id)
        = (List.range' part texts.length).map (mkChunkId d.doc_id sep) := by
  intro texts
  induction texts with
  | nil => intro part; rfl
  | cons s rest ih =>
    intro part
    simp only [chunksFromTexts, List.map_cons, List.length_cons, List.range'_succ]
    rw [ih (part + 1)]

theorem length_chunksFromTexts (d : Document) (sep : List Char) :
    ∀ (texts : List String) (part : Nat),
      (chunksFromTexts d sep part texts).length = texts.length := by
  intro texts
  induction texts with
  | nil => intro part; rfl
  | cons s rest ih =>
    intro part
    simp only [chunksFromTexts, List.length_cons]
    rw [ih (part + 1)]

/-- Claim C1: for every document and every `chunk_size ≥ 1`, concatenating
the texts of all chunks produced by `fixed_chunk_documents` for that
document, in chunk-id (ordinal) order — which is exactly the emission
order, as the second conjunct shows by listing the ids as consecutive
ordinals from 0 — reproduces the original document text exactly, and a
zero-length text yields zero chunks. -/
theorem c1_fixed_roundtrip (d : Document) (chunk_size : Nat) (hsize : 1 ≤ chunk_size) :
    String.join ((fixed_chunk_documents [d] chunk_size).map (·.text)) = d.text
    ∧ (fixed_chunk_documents [d] chunk_size).map (·.chunk_id)
        = (List.range' 0 (fixedSegments chunk_size d.text.data).length).map
            (mkChunkId d.doc_id fixSep)
    ∧ (d.text = "" → fixed_chunk_documents [d] chunk_size = []) := by
  have hsingle : fixed_chunk_documents [d] chunk_size
      = chunksFromTexts d fixSep 0
          ((fixedSegments chunk_size d.text.data).map fun s => String.mk s) := by
    simp [fixed_chunk_documents]
  refine ⟨?_, ?_, ?_⟩
  · apply String.ext
    rw [hsingle, data_join, map_text_chunksFromTexts]
    have hcomp : (String.data ∘ fun s : List Char => String.mk s) = id := rfl
    rw [List.map_map, hcomp, List.map_id, join_fixedSegments chunk_size hsize]
  · rw [hsingle, map_id_chunksFromTexts, List.length_map]
  · intro h
    rw [hsingle]
    have : d.text.data = [] := by rw [h]
    rw [this]
    rfl

theorem c1_fixed_roundtrip_witness :
    1 ≤ 2 ∧
      (String.join ((fixed_chunk_documents [⟨"D-1", "T", "S", "hello"⟩] 2).map (·.text)) = "hello"
        ∧ (fixed_chunk_documents [⟨"D-1", "T", "S", "hello"⟩] 2).map (·.chunk_id)
            = (List.range' 0 (fixedSegments 2 ("hello" : String).data).length).map
                (mkChunkId "D-1" fixSep)
        ∧ (("hello" : String) = "" → fixed_chunk_documents [⟨"D-1", "T", "S", "hello"⟩] 2 = [])) :=
  ⟨by norm_num, c1_fixed_roundtrip ⟨"D-1", "T", "S", "hello"⟩ 2 (by norm_num)⟩

/-! ## Lemmas: chunk-id uniqueness -/

theorem digitChar_toNat : ∀ d : Nat, d < 10 → (digitChar d).toNat = 48 + d := by decide

theorem digitChar_isDigit : ∀ d : Nat, d < 10 → (digitChar d).isDigit = true := by decide

theorem foldl_decRepGo :
    ∀ (fuel n a : Nat), n < fuel →
      (decRepGo fuel n).foldl (fun acc c => 10 * acc + (c.toNat - 48)) a
        = a * 10 ^ (decRepGo fuel n).length + n := by
  intro fuel
  induction fuel with
  | zero => intro n a h; omega
  | succ m ih =>
    intro n a h
    by_cases hn : n < 10
    · simp only [decRepGo, if_pos hn, List.foldl_cons, List.foldl_nil, List.length_singleton,
        digitChar_toNat n hn, pow_one]
      omega
    · have h10 : 10 ≤ n := le_of_not_lt hn
      have hdivlt : n / 10 < m := by
        have : n / 10 < n := Nat.div_lt_self (by omega) (by omega)
        omega
      simp only [decRepGo, if_neg hn, List.foldl_append, List.foldl_cons, List.foldl_nil,
        List.length_append, List.length_singleton]
      rw [ih (n / 10) a hdivlt]
      have hmod : (digitChar (n % 10)).toNat = 48 + n % 10 :=
        digitChar_toNat _ (Nat.mod_lt _ (by omega))
      rw [hmod, pow_succ, ← mul_assoc]
      set A := a * 10 ^ (decRepGo m (n / 10)).length with hA
      omega

theorem decVal_decRep (n : Nat) : decVal (decRep n) = n := by
  unfold decVal decRep
  rw [foldl_decRepGo (n + 1) n 0 (Nat.lt_succ_self n)]
  simp

theorem decVal_pad2 (n : Nat) : decVal (pad2 n) = n := by
  unfold pad2
  by_cases h : n < 10
  · rw [if_pos h]
    have h0 : (10 * 0 + ('0'.toNat - 48)) = 0 := by decide
    show List.foldl (fun acc c => 10 * acc + (c.toNat - 48)) (10 * 0 + ('0'.toNat - 48))
        (decRep n) = n
    rw [h0]
    exact decVal_decRep n
  · rw [if_neg h]
    exact decVal_decRep n

theorem pad2_injective : Function.Injective pad2 := by
  intro m n h
  have hv := congrArg decVal h
  rwa [decVal_pad2, decVal_pad2] at hv

theorem decRepGo_isDigit :
    ∀ (fuel n : Nat), n < fuel → ∀ c ∈ decRepGo fuel n, c.isDigit = true := by
  intro fuel
  induction fuel with
  | zero => intro n h; omega
  | succ m ih =>
    intro n h c hc
    by_cases hn : n < 10
    · simp only [decRepGo, if_pos hn, List.mem_singleton] at hc
      subst hc
      exact digitChar_isDigit n hn
    · simp only [decRepGo, if_neg hn, List.mem_append, List.mem_singleton] at hc
      rcases hc with hc | hc
      · have hdivlt : n / 10 < m := by
          have : n / 10 < n := Nat.div_lt_self (by omega) (by omega)
          omega
        exact ih (n / 10) hdivlt c hc
      · subst hc
        exact digitChar_isDigit _ (Nat.mod_lt _ (by omega))

theorem pad2_isDigit (n : Nat) : ∀ c ∈ pad2 n, c.isDigit = true := by
  intro c hc
  unfold pad2 at hc
  by_cases h : n < 10
  · rw [if_pos h] at hc
    rcases List.mem_cons.mp hc with hc | hc
    · subst hc; decide
    · exact decRepGo_isDigit (n + 1) n (Nat.lt_succ_self n) c hc
  · rw [if_neg h] at hc
    exact decRepGo_isDigit (n + 1) n (Nat.lt_succ_self n) c hc

/-- Cancellation through a separator that starts with a non-digit: a
digit string, then the separator, then a remainder determines each part. -/
theorem sep_digits_append_inj (c0 : Char) (t : List Char) (hc0 : c0.isDigit = false) :
    ∀ (e1 e2 r1 r2 : List Char),
      (∀ c ∈ e1, c.isDigit = true) → (∀ c ∈ e2, c.isDigit = true) →
      e1 ++ ((c0 :: t) ++ r1) = e2 ++ ((c0 :: t) ++ r2) → e1 = e2 ∧ r1 = r2 := by
  intro e1
  induction e1 with
  | nil =>
    intro e2 r1 r2 h1 h2 heq
    cases e2 with
    | nil => exact ⟨rfl, List.append_cancel_left heq⟩
    | cons d e2t =>
      exfalso
      rw [List.nil_append, List.cons_append, List.cons_append] at heq
      injection heq with hhd _
      have hd : d.isDigit = true := h2 d (List.mem_cons_self d e2t)
      rw [← hhd] at hd
      rw [hd] at hc0
      exact Bool.noConfusion hc0
  | cons d1 e1t ih =>
    intro e2 r1 r2 h1 h2 heq
    cases e2 with
    | nil =>
      exfalso
      rw [List.nil_append, List.cons_append, List.cons_append] at heq
      injection heq with hhd _
      have hd : d1.isDigit = true := h1 d1 (List.mem_cons_self d1 e1t)
      rw [hhd] at hd
      rw [hd] at hc0
      exact Bool.noConfusion hc0
    | cons d2 e2t =>
      rw [List.cons_append, List.cons_append] at heq
      injection heq with hhd htl
      obtain ⟨he, hr⟩ := ih e2t r1 r2
        (fun c hc => h1 c (List.mem_cons_of_mem _ hc))
        (fun c hc => h2 c (List.mem_cons_of_mem _ hc)) htl
      exact ⟨by rw [hhd, he], hr⟩

/-- The chunk-id constructor is injective in the document id and the
ordinal, for any separator whose last character is not a digit. -/
theorem mkChunkId_inj (sep : List Char) (c0 : Char) (t : List Char)
    (hrev : sep.reverse = c0 :: t) (hc0 : c0.isDigit = false)
    (doc1 doc2 : String) (i j : Nat)
    (h : mkChunkId doc1 sep i = mkChunkId doc2 sep j) : doc1 = doc2 ∧ i = j := by
  have hdata : doc1.data ++ sep ++ pad2 i = doc2.data ++ sep ++ pad2 j := congrArg String.data h
  have hrev2 : (pad2 i).reverse ++ (sep.reverse ++ doc1.data.reverse)
      = (pad2 j).reverse ++ (sep.reverse ++ doc2.data.reverse) := by
    have hr := congrArg List.reverse hdata
    simpa only [List.reverse_append] using hr
  rw [hrev] at hrev2
  obtain ⟨he, hr⟩ := sep_digits_append_inj c0 t hc0 _ _ _ _
    (fun c hc => pad2_isDigit i c (List.mem_reverse.mp hc))
    (fun c hc => pad2_isDigit j c (List.mem_reverse.mp hc)) hrev2
  refine ⟨?_, ?_⟩
  · apply String.ext
    exact List.reverse_injective hr
  · exact pad2_injective (List.reverse_injective he)

theorem mem_ids_chunksFromTexts (d : Document) (sep : List Char) (texts : List String)
    (part : Nat) (a : String) (ha : a ∈ (chunksFromTexts d sep part texts).map (·.chunk_id)) :
    ∃ i, a = mkChunkId d.doc_id sep i := by
  rw [map_id_chunksFromTexts] at ha
  obtain ⟨i, _, rfl⟩ := List.mem_map.mp ha
  exact ⟨i, rfl⟩

theorem nodup_ids_chunksFromTexts (d : Document) (sep : List Char) (c0 : Char) (t : List Char)
    (hrev : sep.reverse = c0 :: t) (hc0 : c0.isDigit = false) (texts : List String) (part : Nat) :
    ((chunksFromTexts d sep part texts).map (·.chunk_id)).Nodup := by
  rw [map_id_chunksFromTexts]
  refine List.Nodup.map ?_ (List.nodup_range' _ _)
  intro i j hij
  exact (mkChunkId_inj sep c0 t hrev hc0 _ _ i j hij).2

/-- Chunk ids produced across a document list are distinct for either
strategy, provided the documents carry pairwise-distinct `doc_id`s. -/
theorem nodup_ids_flatMap (sep : List Char) (c0 : Char) (t : List Char)
    (hrev : sep.reverse = c0 :: t) (hc0 : c0.isDigit = false)
    (documents : List Document) (hnd : (documents.map (·.doc_id)).Nodup)
    (f : Document → List String) :
    ((documents.flatMap fun d => chunksFromTexts d sep 0 (f d)).map (·.chunk_id)).Nodup := by
  rw [List.map_flatMap]
  rw [List.nodup_flatMap]
  constructor
  · intro d _
    exact nodup_ids_chunksFromTexts d sep c0 t hrev hc0 (f d) 0
  · have hpw : documents.Pairwise (fun x y => x.doc_id ≠ y.doc_id) :=
      List.pairwise_map.mp hnd
    refine hpw.imp ?_
    intro x y hxy
    intro a ha hb
    obtain ⟨i, rfl⟩ := mem_ids_chunksFromTexts x sep (f x) 0 _ ha
    obtain ⟨j, hj⟩ := mem_ids_chunksFromTexts y sep (f y) 0 _ hb
    exact hxy (mkChunkId_inj sep c0 t hrev hc0 _ _ i j hj).1

/-- Claim C8 counterexample: two documents sharing the same `doc_id`
produce colliding chunk ids within a single fixed-width chunking call, so
the claim fails as stated (it holds only for distinct `doc_id`s). -/
theorem c8_counterexample :
    ¬ ((fixed_chunk_documents
        [⟨"D-A", "T", "S", "x"⟩, ⟨"D-A", "T", "S", "y"⟩] 260).map (·.chunk_id)).Nodup := by
  decide

/-- Claim C8 (amended): for every list of documents whose `doc_id`s are
pairwise distinct, the chunk ids in the output of a single chunking call
(fixed-width with any `chunk_size`, or semantic) are pairwise distinct. -/
theorem c8_unique_chunk_ids (documents : List Document) (chunk_size : Nat)
    (hnd : (documents.map (·.doc_id)).Nodup) :
    ((fixed_chunk_documents documents chunk_size).map (·.chunk_id)).Nodup
    ∧ ((semantic_chunk_documents documents).map (·.chunk_id)).Nodup :=
  ⟨nodup_ids_flatMap fixSep '-' ['X', 'I', 'F', '-'] rfl rfl documents hnd _,
   nodup_ids_flatMap semSep '-' ['M', 'E', 'S', '-'] rfl rfl documents hnd _⟩

theorem c8_unique_chunk_ids_witness :
    (([⟨"D-A", "T", "S", "ab"⟩, ⟨"D-B", "T", "S", "c"⟩] : List Document).map (·.doc_id)).Nodup
    ∧ (((fixed_chunk_documents [⟨"D-A", "T", "S", "ab"⟩, ⟨"D-B", "T", "S", "c"⟩] 1).map
          (·.chunk_id)).Nodup
        ∧ ((semantic_chunk_documents [⟨"D-A", "T", "S", "ab"⟩, ⟨"D-B", "T", "S", "c"⟩]).map
          (·.chunk_id)).Nodup) :=
  ⟨by decide, c8_unique_chunk_ids [⟨"D-A", "T", "S", "ab"⟩, ⟨"D-B", "T", "S", "c"⟩] 1 (by decide)⟩

/-! ## Claim C10: semantic chunk counts -/

/-- Claim C10: semantic chunking emits exactly one chunk when at most two
non-empty sentence-like units remain and exactly two chunks otherwise; a
document with no non-empty units yields exactly one chunk whose text is
empty; semantic chunking never emits zero chunks for a document. -/
theorem c10_semantic_counts (d : Document) :
    ((sentenceLikeParts d.text).length ≤ 2 → (semantic_chunk_documents [d]).length = 1)
    ∧ (2 < (sentenceLikeParts d.text).length → (semantic_chunk_documents [d]).length = 2)
    ∧ (sentenceLikeParts d.text = [] →
        semantic_chunk_documents [d]
          = [{ chunk_id := mkChunkId d.doc_id semSep 0, doc_id := d.doc_id,
               sectionName := d.sectionName, text := "" }])
    ∧ semantic_chunk_documents [d] ≠ [] := by
  have hsingle : semantic_chunk_documents [d]
      = chunksFromTexts d semSep 0 (mergedGroups (sentenceLikeParts d.text)) := by
    simp [semantic_chunk_documents]
  refine ⟨?_, ?_, ?_, ?_⟩
  · intro h
    rw [hsingle, length_chunksFromTexts, mergedGroups, if_pos h]
    rfl
  · intro h
    rw [hsingle, length_chunksFromTexts, mergedGroups, if_neg (not_le.mpr h)]
    rfl
  · intro h
    rw [hsingle, h]
    rfl
  · intro h
    rw [hsingle] at h
    unfold mergedGroups at h
    by_cases hle : (sentenceLikeParts d.text).length ≤ 2
    · rw [if_pos hle] at h
      exact absurd h (by simp [chunksFromTexts])
    · rw [if_neg hle] at h
      exact absurd h (by simp [chunksFromTexts])

theorem c10_semantic_counts_witness :
    sentenceLikeParts (("" : String)) = []
    ∧ semantic_chunk_documents [⟨"D-1", "T", "S", ""⟩]
        = [{ chunk_id := mkChunkId "D-1" semSep 0, doc_id := "D-1",
             sectionName := "S", text := "" }] :=
  ⟨by decide, (c10_semantic_counts ⟨"D-1", "T", "S", ""⟩).2.2.1 (by decide)⟩

/-! ## Lemmas: Recall at k and reciprocal rank -/

/-- The embedded Python substring test agrees with substring
decomposition: `needle in hay` holds exactly when `hay` splits as
`pre ++ needle ++ post`. -/
theorem containsSub_iff (needle hay : String) :
    containsSub needle hay = true
      ↔ ∃ pre post : List Char, hay.data = pre ++ needle.data ++ post := by
  rw [containsSub, List.any_eq_true]
  constructor
  · rintro ⟨t, ht, hp⟩
    obtain ⟨pre, hpre⟩ := (List.mem_tails t hay.data).mp ht
    obtain ⟨post, hpost⟩ := List.isPrefixOf_iff_prefix.mp hp
    refine ⟨pre, post, ?_⟩
    rw [← hpre, ← hpost, List.append_assoc]
  · rintro ⟨pre, post, hsplit⟩
    refine ⟨needle.data ++ post, ?_, ?_⟩
    · rw [List.mem_tails]
      exact ⟨pre, by rw [← List.append_assoc, ← hsplit]⟩
    · exact List.isPrefixOf_iff_prefix.mpr ⟨post, rfl⟩

theorem recallWindow_eq_ite (target : String) :
    ∀ l : List RetrievalResult,
      recallWindow target l
        = if l.any (fun r => containsSub target r.chunk_id) then (1 : ℚ) else 0 := by
  intro l
  induction l with
  | nil => rfl
  | cons r rest ih =>
    by_cases h : containsSub target r.chunk_id
    · simp [recallWindow, h]
    · simp only [recallWindow]
      rw [if_neg (by simp [h]), ih]
      simp [List.any_cons, h]

theorem recallWindow_append_miss (target : String) (l1 l2 : List RetrievalResult)
    (hmiss : ∀ r ∈ l1, containsSub target r.chunk_id = false) :
    recallWindow target (l1 ++ l2) = recallWindow target l2 := by
  induction l1 with
  | nil => rfl
  | cons r rest ih =>
    have hr : containsSub target r.chunk_id = false := hmiss r (List.mem_cons_self r rest)
    simp only [List.cons_append, recallWindow, hr]
    rw [if_neg (by simp)]
    exact ih fun x hx => hmiss x (List.mem_cons_of_mem _ hx)

/-- Claim C5: `recall_at_k` returns 1 exactly when the target doc id is a
substring of the chunk id of some result among the first `k` results and
0 otherwise (first conjunct); in particular a result list whose only
matching result sits at rank `k+1` scores 0 at cutoff `k` and 1 at cutoff
`k+1` (second conjunct). -/
theorem c5_recall_at_k (results : List RetrievalResult) (query : QueryExample) (k : Nat) :
    (recall_at_k results query k
      = if (results.take k).any (fun r => containsSub query.target_doc_id r.chunk_id)
        then (1 : ℚ) else 0)
    ∧ ∀ (h : k < results.length),
        (∀ r ∈ results.take k, containsSub query.target_doc_id r.chunk_id = false) →
        containsSub query.target_doc_id (results.get ⟨k, h⟩).chunk_id = true →
        recall_at_k results query k = 0 ∧ recall_at_k results query (k + 1) = 1 := by
  constructor
  · exact recallWindow_eq_ite _ _
  · intro h hmiss hhit
    constructor
    · rw [recall_at_k, recallWindow_eq_ite]
      have hfalse : (results.take k).any (fun r => containsSub query.target_doc_id r.chunk_id)
          = false := by
        rw [List.any_eq_false]
        intro r hr
        simp [hmiss r hr]
      simp [hfalse]
    · have htake : results.take (k + 1) = results.take k ++ [results.get ⟨k, h⟩] := by
        rw [List.take_succ]
        congr 1
        rw [List.getElem?_eq_getElem h]
        rfl
      rw [recall_at_k, htake, recallWindow_append_miss _ _ _ hmiss]
      have hhit2 : containsSub query.target_doc_id results[k].chunk_id = true := hhit
      simp [recallWindow, hhit2]

theorem c5_recall_at_k_witness :
    recall_at_k
        [⟨"A-00", 0, "dense", "t"⟩, ⟨"D-1-FIX-00", 0, "dense", "t"⟩]
        ⟨"Q1", "q", [], "D-1", "S", "r"⟩ 1 = 0
    ∧ recall_at_k
        [⟨"A-00", 0, "dense", "t"⟩, ⟨"D-1-FIX-00", 0, "dense", "t"⟩]
        ⟨"Q1", "q", [], "D-1", "S", "r"⟩ 2 = 1 :=
  (c5_recall_at_k
      [⟨"A-00", 0, "dense", "t"⟩, ⟨"D-1-FIX-00", 0, "dense", "t"⟩]
      ⟨"Q1", "q", [], "D-1", "S", "r"⟩ 1).2
    (by decide) (by decide) (by decide)

theorem rrLoop_append_miss (target : String) :
    ∀ (l1 l2 : List RetrievalResult) (rank : Nat),
      (∀ r ∈ l1, containsSub target r.chunk_id = false) →
      rrLoop target rank (l1 ++ l2) = rrLoop target (rank + l1.length) l2 := by
  intro l1
  induction l1 with
  | nil => intro l2 rank _; simp
  | cons r rest ih =>
    intro l2 rank hmiss
    have hr : containsSub target r.chunk_id = false := hmiss r (List.mem_cons_self r rest)
    have hlen : rank + (r :: rest).length = (rank + 1) + rest.length := by
      simp only [List.length_cons]
      omega
    rw [hlen, List.cons_append]
    simp only [rrLoop]
    rw [if_neg (by simp [hr])]
    exact ih l2 (rank + 1) fun x hx => hmiss x (List.mem_cons_of_mem _ hx)

theorem rrLoop_all_miss (target : String) :
    ∀ (l : List RetrievalResult) (rank : Nat),
      (∀ r ∈ l, containsSub target r.chunk_id = false) → rrLoop target rank l = 0 := by
  intro l
  induction l with
  | nil => intro rank _; rfl
  | cons r rest ih =>
    intro rank hmiss
    have hr : containsSub target r.chunk_id = false := hmiss r (List.mem_cons_self r rest)
    simp only [rrLoop]
    rw [if_neg (by simp [hr])]
    exact ih (rank + 1) fun x hx => hmiss x (List.mem_cons_of_mem _ hx)

/-- Claim C6: `reciprocal_rank` returns exactly `1/r` where `r` is the
1-indexed position of the first result in the entire supplied list whose
chunk id contains the target doc id as a substring (first conjunct, with
the first match exposed as a `pre ++ hit :: post` split), and 0 when no
result in the whole list matches (second conjunct). -/
theorem c6_reciprocal_rank (results : List RetrievalResult) (query : QueryExample) :
    (∀ (pre : List RetrievalResult) (r : RetrievalResult) (post : List RetrievalResult),
        results = pre ++ r :: post →
        (∀ x ∈ pre, containsSub query.target_doc_id x.chunk_id = false) →
        containsSub query.target_doc_id r.chunk_id = true →
        reciprocal_rank results query = 1 / ((pre.length : ℚ) + 1))
    ∧ ((∀ r ∈ results, containsSub query.target_doc_id r.chunk_id = false) →
        reciprocal_rank results query = 0) := by
  constructor
  · intro pre r post hsplit hmiss hhit
    rw [reciprocal_rank, hsplit, rrLoop_append_miss _ _ _ _ hmiss]
    simp only [rrLoop]
    rw [if_pos (by simp [hhit])]
    push_cast
    ring_nf
  · intro hmiss
    exact rrLoop_all_miss _ _ _ hmiss

theorem c6_reciprocal_rank_witness :
    reciprocal_rank
        [⟨"A-00", 0, "dense", "t"⟩, ⟨"D-1-FIX-00", 0, "dense", "t"⟩]
        ⟨"Q1", "q", [], "D-1", "S", "r"⟩ = 1 / 2 := by
  have h := (c6_reciprocal_rank
      [⟨"A-00", 0, "dense", "t"⟩, ⟨"D-1-FIX-00", 0, "dense", "t"⟩]
      ⟨"Q1", "q", [], "D-1", "S", "r"⟩).1
    [⟨"A-00", 0, "dense", "t"⟩] ⟨"D-1-FIX-00", 0, "dense", "t"⟩ [] rfl
    (by decide) (by decide)
  rw [h]
  norm_num

/-! ## Lemmas: groundedness -/

theorem mem_foldl_union (l : List String) (x : String) :
    ∀ acc : Finset String,
      (x ∈ l.foldl (fun a c => a ∪ normalizeTokens c) acc
        ↔ x ∈ acc ∨ ∃ c ∈ l, x ∈ normalizeTokens c) := by
  induction l with
  | nil => intro acc; simp
  | cons s rest ih =>
    intro acc
    simp only [List.foldl_cons]
    rw [ih]
    simp only [Finset.mem_union, List.mem_cons]
    constructor
    · rintro ((h | h) | ⟨c, hc, hx⟩)
      · exact Or.inl h
      · exact Or.inr ⟨s, Or.inl rfl, h⟩
      · exact Or.inr ⟨c, Or.inr hc, hx⟩
    · rintro (h | ⟨c, hc | hc, hx⟩)
      · exact Or.inl (Or.inl h)
      · subst hc; exact Or.inl (Or.inr hx)
      · exact Or.inr ⟨c, hc, hx⟩

/-- Claim C7 counterexample: the empty answer equals the (only) context
text, yet its groundedness is 0, not the 1.0 the claim requires for an
answer equal to a context text (the claim simultaneously demands 0.0 for
a token-less answer, and the token-less rule is what the code applies). -/
theorem c7_counterexample :
    ("" ∈ ([""] : List String)) ∧ groundedness_score "" [""] = 0 := by
  constructor
  · simp
  · decide

/-- Claim C7 (amended): `groundedness_score` always lies in `[0,1]`; it is
1 when the answer text equals one of the context texts and the answer has
at least one token; it is 0 when the answer's token set is disjoint from
every context's token set; and it is 0 when the answer has no tokens under
the `[a-zA-Z0-9-]+` tokenization. -/
theorem c7_groundedness (answer : String) (contexts : List String) :
    (0 ≤ groundedness_score answer contexts ∧ groundedness_score answer contexts ≤ 1)
    ∧ ((∃ c ∈ contexts, answer = c) → normalizeTokens answer ≠ ∅ →
        groundedness_score answer contexts = 1)
    ∧ ((∀ x ∈ normalizeTokens answer, ∀ c ∈ contexts, x ∉ normalizeTokens c) →
        groundedness_score answer contexts = 0)
    ∧ (normalizeTokens answer = ∅ → groundedness_score answer contexts = 0) := by
  by_cases hA : (normalizeTokens answer).card = 0
  · have h0 : groundedness_score answer contexts = 0 := by
      rw [groundedness_score, if_pos hA]
    refine ⟨⟨by rw [h0], by rw [h0]; norm_num⟩, ?_, fun _ => h0, fun _ => h0⟩
    intro _ hne
    exact absurd (Finset.card_eq_zero.mp hA) hne
  · have hpos : 1 ≤ (normalizeTokens answer).card := Nat.one_le_iff_ne_zero.mpr hA
    have hmax : max (normalizeTokens answer).card 1 = (normalizeTokens answer).card :=
      Nat.max_eq_left hpos
    have hden : (0 : ℚ) < ((max (normalizeTokens answer).card 1 : ℕ) : ℚ) := by
      rw [hmax]
      exact_mod_cast Nat.lt_of_lt_of_le Nat.zero_lt_one hpos
    have hval : groundedness_score answer contexts
        = ((normalizeTokens answer
            ∩ contexts.foldl (fun acc context => acc ∪ normalizeTokens context) ∅).card : ℚ)
          / ((max (normalizeTokens answer).card 1 : ℕ) : ℚ) := by
      rw [groundedness_score, if_neg hA]
    refine ⟨⟨?_, ?_⟩, ?_, ?_, ?_⟩
    · rw [hval]
      positivity
    · rw [hval]
      rw [div_le_one hden]
      rw [hmax]
      exact_mod_cast Finset.card_le_card Finset.inter_subset_left
    · rintro ⟨c, hc, heq⟩ _
      subst heq
      have hsub : normalizeTokens answer
          ⊆ contexts.foldl (fun acc context => acc ∪ normalizeTokens context) ∅ := by
        intro x hx
        rw [mem_foldl_union]
        exact Or.inr ⟨answer, hc, hx⟩
      rw [hval, Finset.inter_eq_left.mpr hsub, hmax, div_self]
      exact_mod_cast hA
    · intro hdisj
      have hempty : normalizeTokens answer
          ∩ contexts.foldl (fun acc context => acc ∪ normalizeTokens context) ∅ = ∅ := by
        rw [Finset.eq_empty_iff_forall_not_mem]
        intro x hx
        obtain ⟨hxa, hxc⟩ := Finset.mem_inter.mp hx
        rcases (mem_foldl_union contexts x ∅).mp hxc with h | ⟨c, hc, hxin⟩
        · exact absurd h (Finset.not_mem_empty x)
        · exact hdisj x hxa c hc hxin
      rw [hval, hempty]
      simp
    · intro hne
      exact absurd (by rw [hne]; rfl) hA

theorem c7_groundedness_witness :
    groundedness_score "remote work policy" ["remote work policy"] = 1
    ∧ groundedness_score "alpha" ["beta gamma"] = 0 :=
  ⟨(c7_groundedness "remote work policy" ["remote work policy"]).2.1
      ⟨"remote work policy", by simp, rfl⟩ (by decide),
    (c7_groundedness "alpha" ["beta gamma"]).2.2.1 (by decide)⟩

/-! ## Lemmas: Reciprocal Rank Fusion -/

theorem rrf_eq (dense keyword : List RetrievalResult) (k : ℚ) :
    reciprocal_rank_fusion dense keyword k
      = (List.insertionSort sndGE
          ((firstDedup ((dense ++ keyword).map (·.chunk_id))).map
            fun cid => (cid, fusedScore k dense keyword cid))).map
          fun p => { chunk_id := p.1, score := p.2, source := "hybrid",
                     text := lastTextOf (dense ++ keyword) p.1 } := rfl

theorem mem_firstDedupGo (x : String) :
    ∀ (l seen : List String), x ∈ firstDedupGo l seen ↔ x ∈ l ∧ x ∉ seen := by
  intro l
  induction l with
  | nil => intro seen; simp [firstDedupGo]
  | cons y ys ih =>
    intro seen
    by_cases hy : y ∈ seen
    · rw [firstDedupGo, if_pos hy, ih]
      constructor
      · rintro ⟨hx, hns⟩
        exact ⟨List.mem_cons_of_mem _ hx, hns⟩
      · rintro ⟨hx, hns⟩
        rcases List.mem_cons.mp hx with rfl | hx
        · exact absurd hy hns
        · exact ⟨hx, hns⟩
    · rw [firstDedupGo, if_neg hy]
      constructor
      · intro hx
        rcases List.mem_cons.mp hx with rfl | hx
        · exact ⟨List.mem_cons_self _ _, hy⟩
        · obtain ⟨h1, h2⟩ := (ih (y :: seen)).mp hx
          exact ⟨List.mem_cons_of_mem _ h1, fun hs => h2 (List.mem_cons_of_mem _ hs)⟩
      · rintro ⟨hx, hns⟩
        rcases List.mem_cons.mp hx with rfl | hx
        · exact List.mem_cons_self _ _
        · by_cases hxy : x = y
          · subst hxy
            exact List.mem_cons_self _ _
          · refine List.mem_cons_of_mem _ ((ih (y :: seen)).mpr ⟨hx, ?_⟩)
            intro hc
            rcases List.mem_cons.mp hc with h | h
            · exact hxy h
            · exact hns h

theorem mem_firstDedup (x : String) (l : List String) : x ∈ firstDedup l ↔ x ∈ l := by
  rw [firstDedup, mem_firstDedupGo]
  simp

theorem rrfContrib_notMem (k : ℚ) (cid : String) :
    ∀ (l : List RetrievalResult) (rank : Nat), cid ∉ l.map (·.chunk_id) →
      rrfContrib k rank l cid = 0 := by
  intro l
  induction l with
  | nil => intro rank _; rfl
  | cons r rest ih =>
    intro rank hnot
    simp only [List.map_cons, List.mem_cons] at hnot
    push_neg at hnot
    rw [rrfContrib, if_neg (fun h => hnot.1 h.symm), zero_add]
    exact ih (rank + 1) (by simpa using hnot.2)

theorem rrfContrib_cons_head (k : ℚ) (cid : String) (r : RetrievalResult)
    (rest : List RetrievalResult) (rank : Nat) (hid : r.chunk_id = cid)
    (hnot : cid ∉ rest.map (·.chunk_id)) :
    rrfContrib k rank (r :: rest) cid = 1 / (k + (rank : ℚ)) := by
  rw [rrfContrib, if_pos hid, rrfContrib_notMem k cid rest (rank + 1) hnot, add_zero]

theorem rrfContrib_le (k : ℚ) (hk : 0 < k) (cid : String) :
    ∀ (l : List RetrievalResult) (rank : Nat),
      (l.map (·.chunk_id)).Nodup → rrfContrib k rank l cid ≤ 1 / (k + (rank : ℚ)) := by
  intro l
  induction l with
  | nil =>
    intro rank _
    rw [rrfContrib]
    have hden : (0 : ℚ) < k + (rank : ℚ) := by
      have h0 : (0 : ℚ) ≤ (rank : ℚ) := Nat.cast_nonneg rank
      linarith
    exact div_nonneg zero_le_one (le_of_lt hden)
  | cons r rest ih =>
    intro rank hnd
    simp only [List.map_cons, List.nodup_cons] at hnd
    obtain ⟨hhead, htail⟩ := hnd
    by_cases hid : r.chunk_id = cid
    · subst hid
      rw [rrfContrib_cons_head k _ r rest rank rfl hhead]
    · rw [rrfContrib, if_neg hid, zero_add]
      have h1 := ih (rank + 1) htail
      have hden : (0 : ℚ) < k + (rank : ℚ) := by
        have h0 : (0 : ℚ) ≤ (rank : ℚ) := Nat.cast_nonneg rank
        linarith
      refine le_trans h1 ?_
      apply one_div_le_one_div_of_le hden
      push_cast
      linarith

theorem fusedScore_double_head (k : ℚ) (d0 k0 : RetrievalResult) (dt kt : List RetrievalResult)
    (a : String) (hd : d0.chunk_id = a) (hk0 : k0.chunk_id = a)
    (hdn : a ∉ dt.map (·.chunk_id)) (hkn : a ∉ kt.map (·.chunk_id)) :
    fusedScore k (d0 :: dt) (k0 :: kt) a = 2 / (k + 1) := by
  rw [fusedScore, rrfContrib_cons_head k a d0 dt 1 hd hdn,
    rrfContrib_cons_head k a k0 kt 1 hk0 hkn]
  push_cast
  ring

theorem fusedScore_other_le (k : ℚ) (hk : 0 < k) (d0 k0 : RetrievalResult)
    (dt kt : List RetrievalResult) (b : String)
    (hd : ¬ d0.chunk_id = b) (hk0 : ¬ k0.chunk_id = b)
    (hdn : (dt.map (·.chunk_id)).Nodup) (hkn : (kt.map (·.chunk_id)).Nodup) :
    fusedScore k (d0 :: dt) (k0 :: kt) b ≤ 2 / (k + 2) := by
  rw [fusedScore, rrfContrib, if_neg hd, zero_add, rrfContrib, if_neg hk0, zero_add]
  have h1 := rrfContrib_le k hk b dt (1 + 1) hdn
  have h2 := rrfContrib_le k hk b kt (1 + 1) hkn
  calc rrfContrib k (1 + 1) dt b + rrfContrib k (1 + 1) kt b
      ≤ 1 / (k + ((1 + 1 : Nat) : ℚ)) + 1 / (k + ((1 + 1 : Nat) : ℚ)) := add_le_add h1 h2
    _ = 2 / (k + 2) := by push_cast; ring

theorem rrf_score_of_mem (dense keyword : List RetrievalResult) (k : ℚ) (r : RetrievalResult)
    (hr : r ∈ reciprocal_rank_fusion dense keyword k) :
    r.score = fusedScore k dense keyword r.chunk_id := by
  rw [rrf_eq] at hr
  obtain ⟨p, hp, rfl⟩ := List.mem_map.mp hr
  rw [List.mem_insertionSort] at hp
  obtain ⟨cid, _, rfl⟩ := List.mem_map.mp hp
  rfl

theorem rrf_mem_of_mem_ids (dense keyword : List RetrievalResult) (k : ℚ) (cid : String)
    (h : cid ∈ (dense ++ keyword).map (·.chunk_id)) :
    ∃ r ∈ reciprocal_rank_fusion dense keyword k,
      r.chunk_id = cid ∧ r.score = fusedScore k dense keyword cid := by
  rw [rrf_eq]
  have h1 : cid ∈ firstDedup ((dense ++ keyword).map (·.chunk_id)) :=
    (mem_firstDedup _ _).mpr h
  have h2 := List.mem_map_of_mem (fun c => (c, fusedScore k dense keyword c)) h1
  have h3 := (List.mem_insertionSort sndGE).mpr h2
  exact ⟨_, List.mem_map_of_mem _ h3, rfl, rfl⟩

theorem rrf_sorted (dense keyword : List RetrievalResult) (k : ℚ) :
    (reciprocal_rank_fusion dense keyword k).Pairwise (fun x y => y.score ≤ x.score) := by
  rw [rrf_eq, List.pairwise_map]
  exact List.sorted_insertionSort sndGE _

/-- Claim C3: for `k = 60`, a chunk ranked first in both input lists of
`reciprocal_rank_fusion` (and not re-occurring later in either list)
receives a fused score of exactly `2/61`: some fused result carries that
chunk id with score `2/61`, and every fused result carrying that chunk id
has score `2/61`. -/
theorem c3_rrf_tie_rule (dense keyword : List RetrievalResult) (c : String)
    (hd : (dense.map (·.chunk_id)).head? = some c)
    (hk : (keyword.map (·.chunk_id)).head? = some c)
    (hdt : c ∉ (dense.map (·.chunk_id)).tail)
    (hkt : c ∉ (keyword.map (·.chunk_id)).tail) :
    (∃ r ∈ reciprocal_rank_fusion dense keyword 60, r.chunk_id = c ∧ r.score = 2 / 61)
    ∧ ∀ r ∈ reciprocal_rank_fusion dense keyword 60, r.chunk_id = c → r.score = 2 / 61 := by
  cases dense with
  | nil => simp at hd
  | cons d0 dt =>
    cases keyword with
    | nil => simp at hk
    | cons k0 kt =>
      simp only [List.map_cons, List.head?_cons, Option.some.injEq] at hd hk
      simp only [List.map_cons, List.tail_cons] at hdt hkt
      have hscore : fusedScore 60 (d0 :: dt) (k0 :: kt) c = 2 / 61 := by
        rw [fusedScore_double_head 60 d0 k0 dt kt c hd hk hdt hkt]
        norm_num
      constructor
      · have hmem : c ∈ ((d0 :: dt) ++ (k0 :: kt)).map (·.chunk_id) := by
          rw [List.map_append]
          refine List.mem_append_left _ ?_
          rw [List.map_cons, hd]
          exact List.mem_cons_self _ _
        obtain ⟨r, hrmem, hrc, hrs⟩ := rrf_mem_of_mem_ids (d0 :: dt) (k0 :: kt) 60 c hmem
        exact ⟨r, hrmem, hrc, by rw [hrs, hscore]⟩
      · intro r hrmem hrc
        rw [rrf_score_of_mem (d0 :: dt) (k0 :: kt) 60 r hrmem, hrc, hscore]

theorem c3_rrf_tie_rule_witness :
    (∃ r ∈ reciprocal_rank_fusion
        [⟨"C1", 1, "dense", "t"⟩] [⟨"C1", 1, "keyword", "t"⟩] 60,
        r.chunk_id = "C1" ∧ r.score = 2 / 61)
    ∧ ∀ r ∈ reciprocal_rank_fusion
        [⟨"C1", 1, "dense", "t"⟩] [⟨"C1", 1, "keyword", "t"⟩] 60,
        r.chunk_id = "C1" → r.score = 2 / 61 :=
  c3_rrf_tie_rule [⟨"C1", 1, "dense", "t"⟩] [⟨"C1", 1, "keyword", "t"⟩] "C1"
    rfl rfl (by decide) (by decide)

/-- Claim C4: for every smoothing constant `k > 0`, a chunk at rank 1 of
both input lists of `reciprocal_rank_fusion` is placed strictly above any
other chunk that appears in the input lists — in particular above any
chunk appearing (at its best possible rank, 1 being unattainable) in only
one of the two lists, which is the claim's instance.  Each input list is
assumed free of duplicate chunk ids, as retrieval stages produce. -/
theorem c4_rrf_dominance (dense keyword : List RetrievalResult) (k : ℚ) (a b : String)
    (hk : 0 < k)
    (hda : (dense.map (·.chunk_id)).head? = some a)
    (hka : (keyword.map (·.chunk_id)).head? = some a)
    (hdnd : (dense.map (·.chunk_id)).Nodup)
    (hknd : (keyword.map (·.chunk_id)).Nodup)
    (hba : b ≠ a)
    (hbmem : b ∈ dense.map (·.chunk_id) ∨ b ∈ keyword.map (·.chunk_id)) :
    (∃ r ∈ reciprocal_rank_fusion dense keyword k, r.chunk_id = a)
    ∧ (∃ r ∈ reciprocal_rank_fusion dense keyword k, r.chunk_id = b)
    ∧ ∀ (i j : Nat) (r s : RetrievalResult),
        (reciprocal_rank_fusion dense keyword k).get? i = some r →
        (reciprocal_rank_fusion dense keyword k).get? j = some s →
        r.chunk_id = a → s.chunk_id = b → i < j := by
  cases dense with
  | nil => simp at hda
  | cons d0 dt =>
    cases keyword with
    | nil => simp at hka
    | cons k0 kt =>
      simp only [List.map_cons, List.head?_cons, Option.some.injEq] at hda hka
      simp only [List.map_cons, List.nodup_cons] at hdnd hknd
      obtain ⟨hdtail, hdnd2⟩ := hdnd
      obtain ⟨hktail, hknd2⟩ := hknd
      rw [hda] at hdtail
      rw [hka] at hktail
      have hscore_a : fusedScore k (d0 :: dt) (k0 :: kt) a = 2 / (k + 1) :=
        fusedScore_double_head k d0 k0 dt kt a hda hka hdtail hktail
      have hd0b : ¬ d0.chunk_id = b := by
        rw [hda]
        exact fun h => hba h.symm
      have hk0b : ¬ k0.chunk_id = b := by
        rw [hka]
        exact fun h => hba h.symm
      have hscore_b : fusedScore k (d0 :: dt) (k0 :: kt) b ≤ 2 / (k + 2) :=
        fusedScore_other_le k hk d0 k0 dt kt b hd0b hk0b hdnd2 hknd2
      have hlt : fusedScore k (d0 :: dt) (k0 :: kt) b
          < fusedScore k (d0 :: dt) (k0 :: kt) a := by
        rw [hscore_a]
        refine lt_of_le_of_lt hscore_b ?_
        refine div_lt_div_of_pos_left (by norm_num) (by linarith) (by linarith)
      have hmem_a : a ∈ ((d0 :: dt) ++ (k0 :: kt)).map (·.chunk_id) := by
        rw [List.map_append]
        refine List.mem_append_left _ ?_
        rw [List.map_cons, hda]
        exact List.mem_cons_self _ _
      have hmem_b : b ∈ ((d0 :: dt) ++ (k0 :: kt)).map (·.chunk_id) := by
        rw [List.map_append]
        rcases hbmem with h | h
        · exact List.mem_append_left _ h
        · exact List.mem_append_right _ h
      obtain ⟨ra, hra_mem, hra_id, _⟩ :=
        rrf_mem_of_mem_ids (d0 :: dt) (k0 :: kt) k a hmem_a
      obtain ⟨rb, hrb_mem, hrb_id, _⟩ :=
        rrf_mem_of_mem_ids (d0 :: dt) (k0 :: kt) k b hmem_b
      refine ⟨⟨ra, hra_mem, hra_id⟩, ⟨rb, hrb_mem, hrb_id⟩, ?_⟩
      intro i j r s hi hj hrid hsid
      have hr_score : r.score = fusedScore k (d0 :: dt) (k0 :: kt) a := by
        have := rrf_score_of_mem (d0 :: dt) (k0 :: kt) k r (List.get?_mem hi)
        rwa [hrid] at this
      have hs_score : s.score = fusedScore k (d0 :: dt) (k0 :: kt) b := by
        have := rrf_score_of_mem (d0 :: dt) (k0 :: kt) k s (List.get?_mem hj)
        rwa [hsid] at this
      by_contra hij
      push_neg at hij
      rcases Nat.lt_or_ge j i with hji | hji
      · obtain ⟨hi2, hgi⟩ := List.get?_eq_some.mp hi
        obtain ⟨hj2, hgj⟩ := List.get?_eq_some.mp hj
        have hrel := List.Sorted.rel_get_of_lt
          (rrf_sorted (d0 :: dt) (k0 :: kt) k)
          (show (⟨j, hj2⟩ : Fin _) < ⟨i, hi2⟩ from hji)
        rw [hgj, hgi] at hrel
        rw [hr_score, hs_score] at hrel
        exact absurd hrel (not_le.mpr hlt)
      · have hij2 : i = j := le_antisymm hji hij
        subst hij2
        rw [hi] at hj
        have : r = s := Option.some.inj hj
        rw [this, hsid] at hrid
        exact hba hrid

theorem c4_rrf_dominance_witness :
    (∃ r ∈ reciprocal_rank_fusion
        [⟨"A", 1, "dense", "ta"⟩, ⟨"B", 1 / 2, "dense", "tb"⟩]
        [⟨"A", 1, "keyword", "ta"⟩] 60, r.chunk_id = "A")
    ∧ (∃ r ∈ reciprocal_rank_fusion
        [⟨"A", 1, "dense", "ta"⟩, ⟨"B", 1 / 2, "dense", "tb"⟩]
        [⟨"A", 1, "keyword", "ta"⟩] 60, r.chunk_id = "B")
    ∧ ∀ (i j : Nat) (r s : RetrievalResult),
        (reciprocal_rank_fusion
          [⟨"A", 1, "dense", "ta"⟩, ⟨"B", 1 / 2, "dense", "tb"⟩]
          [⟨"A", 1, "keyword", "ta"⟩] 60).get? i = some r →
        (reciprocal_rank_fusion
          [⟨"A", 1, "dense", "ta"⟩, ⟨"B", 1 / 2, "dense", "tb"⟩]
          [⟨"A", 1, "keyword", "ta"⟩] 60).get? j = some s →
        r.chunk_id = "A" → s.chunk_id = "B" → i < j :=
  c4_rrf_dominance
    [⟨"A", 1, "dense", "ta"⟩, ⟨"B", 1 / 2, "dense", "tb"⟩]
    [⟨"A", 1, "keyword", "ta"⟩] 60 "A" "B"
    (by norm_num) rfl rfl (by decide) (by decide) (by decide) (Or.inl (by decide))

/-! ## Claim C2: keyword index on empty or malformed chunk input -/

/-- Claim C2 counterexample: building from a malformed chunk list — one
chunk whose text is empty, hence token-less — does not raise (the
spec-modelled scorer is total), but searching the resulting index returns
a non-empty result set: `bm25_search` has no empty-score guard and emits
`min top_k n` results for an `n`-chunk corpus whatever the scores are
(instantiated here with the zero scorer the spec prescribes for token-less
documents, though the value never matters). -/
theorem c2_counterexample :
    bm25_search (fun _ _ => 0) (build_bm25 [⟨"C-1", "D-1", "S", ""⟩]).1 "query"
        (build_bm25 [⟨"C-1", "D-1", "S", ""⟩]).2.1
        (build_bm25 [⟨"C-1", "D-1", "S", ""⟩]).2.2 5
      = [⟨"C-1", 0, "keyword", ""⟩]
    ∧ bm25_search (fun _ _ => 0) (build_bm25 [⟨"C-1", "D-1", "S", ""⟩]).1 "query"
        (build_bm25 [⟨"C-1", "D-1", "S", ""⟩]).2.1
        (build_bm25 [⟨"C-1", "D-1", "S", ""⟩]).2.2 5
      ≠ [] := by
  constructor
  · decide
  · decide

/-- Claim C2 (amended): building the keyword index from an empty or
malformed chunk list does not raise (`build_bm25` and the spec-modelled
scoring are total functions), and searching an index built from the
empty chunk list returns an empty result set — for every spec-conforming
scorer, query and `top_k`.  An index built from a non-empty but
token-less chunk list instead yields zero-scored results, not an empty
set (see the counterexample). -/
theorem c2_empty_index_search (score : List String → List String → ℚ)
    (query : String) (top_k : Nat) :
    bm25_search score (build_bm25 []).1 query
      (build_bm25 []).2.1 (build_bm25 []).2.2 top_k = [] := by
  simp [bm25_search, build_bm25, get_scores]

/-! ## Claim C9: reranking an empty candidate list -/

/-- Claim C9: reranking an empty candidate list returns an empty list and
never invokes the external pairwise-scoring model (the boolean component
of `rerank` records whether `predict` was called). -/
theorem c9_rerank_empty (predict : String × String → ℚ) (query : String) (top_k : Nat) :
    rerank predict query [] top_k = ([], false) := rfl

end Rag
